import Mathlib

/-!
Verification development for the git-viewer history/search/diff/blame engine.

The frontend calling layer is embedded from `src/main.js`.  The backend
engines (commit walker, diff, blame, search) are not shipped with the
frontend sources, so they are modelled from the specification; every such
definition carries a doc comment starting with `Modelled from the spec:`.
-/

set_option maxHeartbeats 1000000

namespace GitViewer

/-- JS `s.toLowerCase()` on the character list of a string. -/
def toLowerList (s : String) : List Char := s.toList.map Char.toLower

/-- Digits-prefix parser used by `parseIntJS`: reads a maximal run of decimal
digits; `none` when the run is empty (JS `NaN`). -/
def parseDigits (cs : List Char) : Option Nat :=
  let ds := cs.takeWhile Char.isDigit
  if ds.isEmpty then none
  else some (ds.foldl (fun a c => a * 10 + (c.toNat - 48)) 0)

/-- JS `parseInt(s, 10)`: skip leading whitespace, optional sign, maximal
digit run; `none` models `NaN`. -/
def parseIntJS (s : String) : Option Int :=
  let cs := s.toList.dropWhile Char.isWhitespace
  match cs with
  | '-' :: rest => (parseDigits rest).map (fun n => -(n : Int))
  | '+' :: rest => (parseDigits rest).map (fun n => (n : Int))
  | rest => (parseDigits rest).map (fun n => (n : Int))

/-- JS `s.trim()`: strip leading and trailing whitespace. -/
def jsTrim (s : String) : String :=
  String.mk (((s.toList.dropWhile Char.isWhitespace).reverse.dropWhile
    Char.isWhitespace).reverse)

/-- `DEFAULT_SEARCH_LIMIT` from `main.js`. -/
def DEFAULT_SEARCH_LIMIT : Int := 100

/-- `getSearchLimit` from `main.js`: `stored` is the value held in
`localStorage` under the search-limit key (`none` when absent).  An empty
string is falsy in JS, hence treated like an absent value. -/
def getSearchLimit (stored : Option String) : Int :=
  match stored with
  | none => DEFAULT_SEARCH_LIMIT
  | some s =>
    if s = "" then DEFAULT_SEARCH_LIMIT
    else
      match parseIntJS s with
      | none => DEFAULT_SEARCH_LIMIT
      | some n => if 10 ≤ n ∧ n ≤ 10000 then n else DEFAULT_SEARCH_LIMIT

/-- `setSearchLimit` from `main.js`: returns the new stored value together
with the boolean result of the call. -/
def setSearchLimit (stored : Option String) (limit : String) : Option String × Bool :=
  match parseIntJS limit with
  | none => (stored, false)
  | some n =>
    if 10 ≤ n ∧ n ≤ 10000 then (some (toString n), true) else (stored, false)

/-- Outcome of `performGlobalSearch` in `main.js`: either the overlay is
hidden with no backend call (empty result, not an error), or the
`global_search` backend command is invoked with the trimmed query and the
configured commit limit. -/
inductive SearchCall where
  | hidden : SearchCall
  | invoked (query : String) (maxCommits : Int) : SearchCall
deriving DecidableEq, Repr

/-- `performGlobalSearch` from `main.js`: `repoPath` is the global
`currentRepoPath` (an empty string is falsy in JS), `stored` the persisted
search limit. -/
def performGlobalSearch (repoPath : Option String) (stored : Option String)
    (query : String) : SearchCall :=
  let repoFalsy : Bool :=
    match repoPath with
    | none => true
    | some s => s = ""
  if repoFalsy ∨ (jsTrim query).length < 2 then SearchCall.hidden
  else SearchCall.invoked (jsTrim query) (getSearchLimit stored)

/-- The input handler installed by `initializeGlobalSearch` in `main.js`:
returns `true` exactly when a (debounced) search is scheduled; short queries
hide the results overlay instead. -/
def searchInputSchedules (query : String) : Bool :=
  if (jsTrim query).length < 2 then false else true

/-- Result record of `fuzzyMatch` in `main.js`.  JS numbers carrying the
score are modelled as rationals. -/
structure FuzzyResult where
  /-- JS field `matches` (a reserved word in Lean). -/
  isMatch : Bool
  score : ℚ
  highlights : List Nat
deriving DecidableEq, Repr

/-- The `while` loop of `fuzzyMatch`: walks the text once, greedily
consuming pattern characters; returns the unconsumed pattern suffix, the
accumulated score and the highlight indices. -/
def fuzzyLoop : List Char → List Char → Nat → Nat → ℚ → List Nat →
    List Char × ℚ × List Nat
  | pat, [], _, _, score, hl => (pat, score, hl)
  | [], _, _, _, score, hl => ([], score, hl)
  | p :: ps, t :: ts, tIdx, consec, score, hl =>
    if p = t then
      fuzzyLoop ps ts (tIdx + 1) (consec + 1)
        (score + ((consec : ℚ) + 1) * 2) (hl ++ [tIdx])
    else
      fuzzyLoop (p :: ps) ts (tIdx + 1) 0 score hl

/-- Word-boundary bonus pass of `fuzzyMatch`: +5 for every highlight at
index 0 or preceded by `/` or `.` in the lowercased text. -/
def wordBoundaryBonus (txt : List Char) (hl : List Nat) (score : ℚ) : ℚ :=
  hl.foldl (fun s i =>
    if i = 0 ∨ txt.get? (i - 1) = some '/' ∨ txt.get? (i - 1) = some '.'
    then s + 5 else s) score

/-- `fuzzyMatch` from `main.js`. -/
def fuzzyMatch (pattern text : String) : FuzzyResult :=
  if pattern = "" then ⟨true, 0, []⟩
  else if text = "" then ⟨false, 0, []⟩
  else
    let pat := toLowerList pattern
    let txt := toLowerList text
    let r := fuzzyLoop pat txt 0 0 0 []
    if r.1.isEmpty then
      let s := wordBoundaryBonus txt r.2.2 r.2.1
      ⟨true, s - (txt.length : ℚ) * (1 / 10), r.2.2⟩
    else ⟨false, r.2.1, r.2.2⟩

/-- One line of blame output (`BlameLine` of the data model); field names
follow the serialized records consumed by `main.js`. -/
structure BlameLine where
  commit_id : String
  commit_short_id : String
  author : String
  date : String
  line_number : Nat
  content : String
deriving DecidableEq, Repr

/-- A blame result (`FileBlame` of the data model). -/
structure FileBlame where
  path : String
  blame_lines : List BlameLine
deriving DecidableEq, Repr

/-- `MAX_CACHE_SIZE` from `main.js`. -/
def MAX_CACHE_SIZE : Nat := 50

/-- The `blameCache` JS `Map`, modelled as an insertion-ordered association
list with unique keys (new keys are appended; setting an existing key
updates it in place, as a JS `Map` does). -/
abbrev BlameCache := List (String × FileBlame)

/-- JS `Map.has`. -/
def mapHas (m : BlameCache) (k : String) : Bool := m.any (fun p => p.1 == k)

/-- JS `Map.get` (pure: reading never mutates or reorders the map). -/
def mapGet (m : BlameCache) (k : String) : Option FileBlame :=
  (m.find? (fun p => p.1 == k)).map (fun p => p.2)

/-- JS `Map.set`: update in place when the key exists, else append. -/
def mapSet (m : BlameCache) (k : String) (v : FileBlame) : BlameCache :=
  if mapHas m k then m.map (fun p => if p.1 == k then (k, v) else p)
  else m ++ [(k, v)]

/-- JS `Map.delete`: remove the (single) entry with the given key. -/
def mapDelete (m : BlameCache) (k : String) : BlameCache :=
  m.eraseP (fun p => p.1 == k)

/-- The read operation performed on a cache hit: `blameCache.get(key)`
returns the value and leaves the map — including its insertion order —
untouched. -/
def readBlameCache (m : BlameCache) (k : String) : BlameCache × Option FileBlame :=
  (m, mapGet m k)

/-- `cacheBlameResult` from `main.js`: when the cache is full, delete the
oldest-inserted entry (`blameCache.keys().next().value` is the first key in
insertion order), then insert. -/
def cacheBlameResult (m : BlameCache) (k : String) (v : FileBlame) : BlameCache :=
  let m1 :=
    if MAX_CACHE_SIZE ≤ m.length then
      match m.head? with
      | some p => mapDelete m p.1
      | none => m
    else m
  mapSet m1 k v

/-- The globals of `main.js` that `loadFileBlame` touches. -/
structure AppState where
  currentRepoPath : Option String
  selectedCommit : Option String
  blameCache : BlameCache
deriving DecidableEq, Repr

/-- The cache key built by `loadFileBlame`. -/
def cacheKey (repo commit path : String) : String :=
  repo ++ ":" ++ commit ++ ":" ++ path

/-- `loadFileBlame` from `main.js`.  `backend` stands for the
`get_file_blame` Tauri command.  Returns the new state, the blame that gets
displayed (`none` when the guard bails out), and whether the backend was
invoked.  An empty string is falsy in JS for the two guards. -/
def loadFileBlame (st : AppState) (filePath : String)
    (backend : String → String → String → FileBlame) :
    AppState × Option FileBlame × Bool :=
  let repoFalsy : Bool :=
    match st.currentRepoPath with
    | none => true
    | some s => s = ""
  let commitFalsy : Bool :=
    match st.selectedCommit with
    | none => true
    | some s => s = ""
  if repoFalsy ∨ commitFalsy then (st, none, false)
  else
    let repo := st.currentRepoPath.getD ""
    let commit := st.selectedCommit.getD ""
    let key := cacheKey repo commit filePath
    match mapGet st.blameCache key with
    | some cached => (st, some cached, false)
    | none =>
      let b := backend repo commit filePath
      ({ st with blameCache := cacheBlameResult st.blameCache key b }, some b, true)

/-- Modelled from the spec: the `Commit` record of the data model (§3); the
backend that produces it is not part of the frontend sources.
`parent_ids.length > 1` marks a merge commit. -/
structure Commit where
  id : String
  short_id : String
  message : String
  author : String
  date : String
  parent_ids : List String
deriving DecidableEq, Repr

/-- Modelled from the spec: `FileChange` status values (§3). -/
inductive FileStatus where
  | added | modified | deleted | renamed
deriving DecidableEq, Repr

/-- Modelled from the spec: the `FileChange` record (§3). -/
structure FileChange where
  path : String
  status : FileStatus
deriving DecidableEq, Repr

/-- Modelled from the spec: `DiffLine.line_type` (§3). -/
inductive LineType where
  | context | addition | deletion
deriving DecidableEq, Repr

/-- Modelled from the spec: the `DiffLine` record (§3). -/
structure DiffLine where
  line_type : LineType
  old_line_number : Option Nat
  new_line_number : Option Nat
  content : String
deriving DecidableEq, Repr

/-- Modelled from the spec: a longest common subsequence of two line lists,
the alignment backbone of the Diff Engine (§4.2, absent Rust backend). -/
def lcs : List String → List String → List String
  | [], _ => []
  | _ :: _, [] => []
  | x :: xs, y :: ys =>
    if x = y then x :: lcs xs ys
    else
      let a := lcs xs (y :: ys)
      let b := lcs (x :: xs) ys
      if b.length ≤ a.length then a else b
termination_by a b => a.length + b.length

/-- Modelled from the spec: the LCS-based line alignment of the Diff Engine
(§4.2): `context` for aligned equal lines, `deletion` for lines only on the
old side, `addition` for lines only on the new side. -/
def diffLines : List String → List String → List (LineType × String)
  | [], [] => []
  | [], y :: ys => (LineType.addition, y) :: diffLines [] ys
  | x :: xs, [] => (LineType.deletion, x) :: diffLines xs []
  | x :: xs, y :: ys =>
    if x = y then (LineType.context, x) :: diffLines xs ys
    else
      if (lcs (x :: xs) ys).length ≤ (lcs xs (y :: ys)).length then
        (LineType.deletion, x) :: diffLines xs (y :: ys)
      else
        (LineType.addition, y) :: diffLines (x :: xs) ys
termination_by a b => a.length + b.length

/-- Modelled from the spec: the independent old/new line counters of the
Diff Engine (§4.2): the old counter advances on `context` and `deletion`,
the new counter on `context` and `addition`; numbers are 1-based. -/
def numberDiff : List (LineType × String) → Nat → Nat → List DiffLine
  | [], _, _ => []
  | (LineType.context, s) :: rest, o, n =>
    ⟨LineType.context, some o, some n, s⟩ :: numberDiff rest (o + 1) (n + 1)
  | (LineType.deletion, s) :: rest, o, n =>
    ⟨LineType.deletion, some o, none, s⟩ :: numberDiff rest (o + 1) n
  | (LineType.addition, s) :: rest, o, n =>
    ⟨LineType.addition, none, some n, s⟩ :: numberDiff rest o (n + 1)

/-- Modelled from the spec: the text-file path of `diff(tree_a, tree_b,
path)` (§4.2), taking the two blobs already split into lines. -/
def computeFileDiff (oldLines newLines : List String) : List DiffLine :=
  numberDiff (diffLines oldLines newLines) 1 1

/-- Whether a `line_type` is `deletion` or `context`: such lines belong to
the old side of the file. -/
def isOldLine : LineType → Bool
  | LineType.deletion => true
  | LineType.context => true
  | LineType.addition => false

/-- Whether a `line_type` is `addition` or `context`: such lines belong to
the new side of the file. -/
def isNewLine : LineType → Bool
  | LineType.addition => true
  | LineType.context => true
  | LineType.deletion => false

/-- Modelled from the spec: the per-candidate-commit attribution step of the
Blame Engine (§4.3): walking the diff between the parent's version and the
candidate's version, `context` lines carry their attribution back from the
parent, `addition` lines are attributed to the candidate commit, `deletion`
lines consume a parent line without producing a current line. -/
def mergeAttr (cid : String) : List (LineType × String) → List String → List String
  | [], _ => []
  | (LineType.context, _) :: d, pa => pa.headD cid :: mergeAttr cid d pa.tail
  | (LineType.deletion, _) :: d, pa => mergeAttr cid d pa.tail
  | (LineType.addition, _) :: d, pa => cid :: mergeAttr cid d pa

/-- Modelled from the spec: the ancestry walk of the Blame Engine (§4.3),
via the equivalent reverse pass sanctioned by §9 (reusing the Diff Engine's
alignment).  `parentOf` gives the first parent, `fileAt` the file's lines at
a commit (`none` when absent: lines then originate at the candidate); `fuel`
bounds the finite history depth. -/
def attributeLines (parentOf : String → Option String)
    (fileAt : String → Option (List String)) :
    Nat → String → List String → List String
  | 0, cid, lines => lines.map (fun _ => cid)
  | fuel + 1, cid, lines =>
    match parentOf cid with
    | none => lines.map (fun _ => cid)
    | some p =>
      match fileAt p with
      | none => lines.map (fun _ => cid)
      | some pls =>
        mergeAttr cid (diffLines pls lines) (attributeLines parentOf fileAt fuel p pls)

/-- Modelled from the spec: assembling `BlameLine` records with 1-based
current-file line numbers (§3, §4.3). -/
def mkBlameLines (shortOf authorOf dateOf : String → String) :
    List String → List String → Nat → List BlameLine
  | [], _, _ => []
  | _ :: _, [], _ => []
  | a :: as, l :: ls, n =>
    ⟨a, shortOf a, authorOf a, dateOf a, n, l⟩ ::
      mkBlameLines shortOf authorOf dateOf as ls (n + 1)

/-- Modelled from the spec: `blame(commit, path) -> FileBlame` (§4.3);
`none` models `FileNotFoundError` for a file absent at the commit. -/
def blame (parentOf : String → Option String)
    (fileAt : String → Option (List String))
    (shortOf authorOf dateOf : String → String)
    (fuel : Nat) (commitId path : String) : Option FileBlame :=
  match fileAt commitId with
  | none => none
  | some lines =>
    let attrs := attributeLines parentOf fileAt fuel commitId lines
    some ⟨path, mkBlameLines shortOf authorOf dateOf attrs lines 1⟩

/-- Modelled from the spec: `SearchResult.result_type` (§3). -/
inductive ResultType where
  | commit | file | content
deriving DecidableEq, Repr

/-- Modelled from the spec: the `SearchResult` record (§3). -/
structure SearchResult where
  result_type : ResultType
  commit_id : String
  commit_message : String
  commit_author : String
  commit_date : String
  file_path : Option String
  content_preview : Option String
  line_number : Option Nat
deriving DecidableEq, Repr

/-- Modelled from the spec: case-insensitive substring match (§4.4). -/
def containsCI (hay needle : String) : Bool :=
  (toLowerList hay).tails.any (fun t => (toLowerList needle).isPrefixOf t)

/-- Modelled from the spec: first case-insensitively matching line of a
file, with its 1-based line number (§4.4 step 4). -/
def firstMatchingLine (query : String) : Nat → List String → Option (Nat × String)
  | _, [] => none
  | n, l :: ls =>
    if containsCI l query then some (n, l) else firstMatchingLine query (n + 1) ls

/-- Modelled from the spec: the `commit`-type result for a message match
(§4.4 step 2). -/
def mkCommitResult (c : Commit) : SearchResult :=
  ⟨ResultType.commit, c.id, c.message, c.author, c.date, none, none, none⟩

/-- Modelled from the spec: the `file`-type result for a path match (§4.4
step 3). -/
def mkFileResult (c : Commit) (path : String) : SearchResult :=
  ⟨ResultType.file, c.id, c.message, c.author, c.date, some path, none, none⟩

/-- Modelled from the spec: the `content`-type result for a content match
(§4.4 step 4). -/
def mkContentResult (c : Commit) (path : String) (ln : Nat) (preview : String) :
    SearchResult :=
  ⟨ResultType.content, c.id, c.message, c.author, c.date, some path, some preview, some ln⟩

/-- Modelled from the spec: the per-commit work of the Search Engine (§4.4
steps 2–4): message match first, then file-name matches over the commit's
`FileChange` set, then first-line content matches for changed files not
already matched by name; `fileLines` returns `none` for files skipped by
the size ceiling or binary content. -/
def commitSearchResults (query : String)
    (changes : String → List FileChange)
    (fileLines : String → String → Option (List String))
    (c : Commit) : List SearchResult :=
  let msgR := if containsCI c.message query then [mkCommitResult c] else []
  let chs := changes c.id
  let fileR := (chs.filter (fun fc => containsCI fc.path query)).map
    (fun fc => mkFileResult c fc.path)
  let contentR := (chs.filter (fun fc => ¬ containsCI fc.path query)).filterMap
    (fun fc =>
      match fileLines c.id fc.path with
      | none => none
      | some ls => (firstMatchingLine query 1 ls).map
          (fun p => mkContentResult c fc.path p.1 p.2))
  msgR ++ fileR ++ contentR

/-- Modelled from the spec: the fixed maximum result count of the Search
Engine (§4.4, recommended 50). -/
def MAX_SEARCH_RESULTS : Nat := 50

/-- Modelled from the spec: the commit loop of the Search Engine (§4.4):
walk commits in order, skip merge commits (parent count > 1), accumulate
per-commit results, and stop as soon as the result cap is hit. -/
def globalSearchGo (query : String)
    (changes : String → List FileChange)
    (fileLines : String → String → Option (List String)) :
    List Commit → List SearchResult → List SearchResult
  | [], acc => acc
  | c :: cs, acc =>
    if MAX_SEARCH_RESULTS ≤ acc.length then acc
    else if 1 < c.parent_ids.length then globalSearchGo query changes fileLines cs acc
    else
      globalSearchGo query changes fileLines cs
        (acc ++ (commitSearchResults query changes fileLines c).take
          (MAX_SEARCH_RESULTS - acc.length))

/-- Modelled from the spec: `global_search` (§4.4, absent Rust backend):
`commits` is the Walker's newest-first sequence, truncated to `maxCommits`
scanned commits. -/
def global_search (commits : List Commit) (query : String) (maxCommits : Nat)
    (changes : String → List FileChange)
    (fileLines : String → String → Option (List String)) : List SearchResult :=
  globalSearchGo query changes fileLines (commits.take maxCommits) []

/-- Modelled from the spec: the repository data the Commit Graph Walker
reads (§4.1): the current HEAD commit id, the branch-name → commit-id
resolution table, and the commit store. -/
structure RepoData where
  head : String
  branches : List (String × String)
  commits : List Commit
deriving DecidableEq, Repr

/-- Modelled from the spec: commit lookup in the object store. -/
def lookupCommit (r : RepoData) (cid : String) : Option Commit :=
  r.commits.find? (fun c => c.id == cid)

/-- Modelled from the spec: starting-ref resolution of the Walker (§4.1): a
branch name that does not resolve falls back to the current HEAD, as does an
absent branch name. -/
def resolveStartRef (r : RepoData) (branchName : Option String) : String :=
  match branchName with
  | none => r.head
  | some name =>
    match r.branches.find? (fun b => b.1 == name) with
    | some b => b.2
    | none => r.head

/-- Modelled from the spec: the bounded newest-first walk (§4.1) along
first parents. -/
def walkFirstParent (r : RepoData) : Nat → String → List Commit
  | 0, _ => []
  | fuel + 1, cid =>
    match lookupCommit r cid with
    | none => []
    | some c =>
      match c.parent_ids.head? with
      | none => [c]
      | some p => c :: walkFirstParent r fuel p

/-- Modelled from the spec: the Walker's error kind (§4.1): it fails with
`RepositoryError` only when the repository cannot be opened or has no
commits; `BranchNotFound` is recoverable and never surfaced (§7). -/
inductive WalkerError where
  | RepositoryError
deriving DecidableEq, Repr

/-- Modelled from the spec: `list_commits` (§4.1, §6, absent Rust backend):
`repo` is `none` when the path cannot be opened as a repository. -/
def list_commits (repo : Option RepoData) (branchName : Option String)
    (maxCount : Nat) : Except WalkerError (List Commit) :=
  match repo with
  | none => Except.error WalkerError.RepositoryError
  | some r =>
    if r.commits.isEmpty then Except.error WalkerError.RepositoryError
    else Except.ok (walkFirstParent r maxCount (resolveStartRef r branchName))

/-- A two-commit first-parent chain for the blame witness: `c2` is the
child of root `c1`. -/
def parentOfW : String → Option String :=
  fun c => if c = "c2" then some "c1" else none

/-- The witness file: one line at the root, two lines at `c2`. -/
def fileAtW : String → Option (List String) :=
  fun c =>
    if c = "c2" then some ["hello", "world"]
    else if c = "c1" then some ["hello"] else none

/-- A merge commit (two parents) for the search witness. -/
def mergeCommitW : Commit :=
  ⟨"m1", "m1", "Merge branch dev", "bob", "2024-01-03", ["h1", "x1"]⟩

/-- A non-merge commit whose message matches the witness query. -/
def helloCommitW : Commit :=
  ⟨"h1", "h1", "say hello world", "alice", "2024-01-02", []⟩

/-- A one-commit repository used by concrete witnesses. -/
def rootCommitW : Commit :=
  ⟨"c1", "c1", "initial commit", "alice", "2024-01-01", []⟩

/-- A concrete repository with HEAD at `rootCommitW` and a single branch. -/
def repoW : RepoData :=
  ⟨"c1", [("main", "c1")], [rootCommitW]⟩

/-- A minimal cached blame value for concrete witnesses. -/
def blameW : FileBlame := ⟨"a.txt", [⟨"c1", "c1", "alice", "2024-01-01", 1, "hello"⟩]⟩

/-- A full 50-entry cache whose keys `"0"`, …, `"49"` differ from `"zz"`. -/
def fullCacheW : BlameCache := (List.range MAX_CACHE_SIZE).map (fun i => (toString i, blameW))

/-- A concrete state holding one cached blame entry. -/
def hitStateW : AppState := ⟨some "r", some "c", [("r:c:a.txt", blameW)]⟩

/-- Claim C2: for every query whose trimmed length is shorter than 2
characters, the calling layer (`performGlobalSearch`, and the input handler
installed by `initializeGlobalSearch`) hides the results overlay — an empty
result, not an error — and never invokes the `global_search` backend. -/
theorem short_query_skips_backend (repoPath stored : Option String) (query : String)
    (h : (jsTrim query).length < 2) :
    performGlobalSearch repoPath stored query = SearchCall.hidden ∧
    searchInputSchedules query = false := by
  constructor
  · simp only [performGlobalSearch]
    rw [if_pos (Or.inr h)]
  · simp only [searchInputSchedules]
    rw [if_pos h]

/-- Witness for C2 at the one-character query `"a"`. -/
theorem short_query_skips_backend_witness :
    performGlobalSearch (some "/repo") (some "100") "a" = SearchCall.hidden ∧
    searchInputSchedules "a" = false :=
  short_query_skips_backend (some "/repo") (some "100") "a" (by decide)

/-- Claim C6: when the requested branch name does not resolve, the commit
walk falls back to the current HEAD — producing exactly the result of a
HEAD walk — and succeeds; `BranchNotFound` is never surfaced as an error. -/
theorem branch_fallback_to_head (r : RepoData) (name : String) (n : Nat)
    (hne : r.commits.isEmpty = false)
    (hnf : r.branches.find? (fun b => b.1 == name) = none) :
    list_commits (some r) (some name) n = list_commits (some r) none n ∧
    ∃ cs, list_commits (some r) (some name) n = Except.ok cs := by
  have hres : resolveStartRef r (some name) = resolveStartRef r none := by
    simp only [resolveStartRef, hnf]
  refine ⟨?_, ?_⟩
  · simp only [list_commits, hne, hres]
  · exact ⟨walkFirstParent r n (resolveStartRef r (some name)), by
      simp only [list_commits, hne]
      rfl⟩

/-- Witness for C6: asking for the unknown branch `"dev"` walks HEAD and
succeeds. -/
theorem branch_fallback_to_head_witness :
    list_commits (some repoW) (some "dev") 5 = list_commits (some repoW) none 5 ∧
    ∃ cs, list_commits (some repoW) (some "dev") 5 = Except.ok cs :=
  branch_fallback_to_head repoW "dev" 5 (by decide) (by decide)

/-- Claim C7: `setSearchLimit` accepts and persists a limit exactly when it
parses to an integer between 10 and 10000 inclusive (rejected values leave
the stored value unchanged), and `getSearchLimit` ignores any stored value
outside that range, returning the default limit 100. -/
theorem search_limit_range (stored : Option String) (limit : String) :
    ((setSearchLimit stored limit).2 = true ↔
      ∃ n, parseIntJS limit = some n ∧ 10 ≤ n ∧ n ≤ 10000) ∧
    (∀ n, parseIntJS limit = some n → 10 ≤ n → n ≤ 10000 →
      (setSearchLimit stored limit).1 = some (toString n)) ∧
    ((setSearchLimit stored limit).2 = false →
      (setSearchLimit stored limit).1 = stored) ∧
    (∀ s, stored = some s →
      (∀ n, parseIntJS s = some n → n < 10 ∨ 10000 < n) →
      getSearchLimit stored = 100) ∧
    getSearchLimit none = 100 := by
  refine ⟨?_, ?_, ?_, ?_, rfl⟩
  · cases hp : parseIntJS limit with
    | none => simp [setSearchLimit, hp]
    | some n =>
      by_cases hr : 10 ≤ n ∧ n ≤ 10000
      · simp only [setSearchLimit, hp, if_pos hr]
        constructor
        · intro _
          exact ⟨n, rfl, hr.1, hr.2⟩
        · intro _
          trivial
      · simp only [setSearchLimit, hp, if_neg hr]
        constructor
        · intro h; simp at h
        · rintro ⟨n2, hn2, h1, h2⟩
          cases Option.some_inj.mp hn2
          exact absurd ⟨h1, h2⟩ hr
  · intro n hp h1 h2
    simp only [setSearchLimit, hp, if_pos (And.intro h1 h2)]
  · intro h
    cases hp : parseIntJS limit with
    | none => simp only [setSearchLimit, hp]
    | some n =>
      by_cases hr : 10 ≤ n ∧ n ≤ 10000
      · simp only [setSearchLimit, hp, if_pos hr] at h
        simp at h
      · simp only [setSearchLimit, hp, if_neg hr]
  · intro s hs hout
    subst hs
    simp only [getSearchLimit]
    by_cases he : s = ""
    · rw [if_pos he]; rfl
    · rw [if_neg he]
      cases hp : parseIntJS s with
      | none => simp only [hp]; rfl
      | some n =>
        have hnot : ¬ (10 ≤ n ∧ n ≤ 10000) := by
          rcases hout n hp with h | h
          · exact fun hc => absurd hc.1 (by omega)
          · exact fun hc => absurd hc.2 (by omega)
        simp only [hp, if_neg hnot]
        rfl

/-- Witness for C7: `"150000"` parses to 150000, which is out of range, so
it is neither persisted nor used — the default 100 wins. -/
theorem search_limit_range_witness :
    (setSearchLimit (some "100") "150000").2 = false ∧
    getSearchLimit (some "150000") = 100 := by
  constructor
  · by_contra h
    have h2 := (search_limit_range (some "100") "150000").1.mp
      (by revert h; cases (setSearchLimit (some "100") "150000").2 <;> simp)
    rcases h2 with ⟨n, hp, h10, h10000⟩
    have : n = 150000 := by
      have : parseIntJS "150000" = some 150000 := by decide
      rw [this] at hp; exact (Option.some_inj.mp hp).symm
    omega
  · exact (search_limit_range (some "150000") "0").2.2.2.1 "150000" rfl
      (fun n hp => by
        have : parseIntJS "150000" = some 150000 := by decide
        rw [this] at hp
        have := Option.some_inj.mp hp
        omega)

/-- `mapSet` grows the cache by at most one entry. -/
theorem mapSet_length_le (m : BlameCache) (k : String) (v : FileBlame) :
    (mapSet m k v).length ≤ m.length + 1 := by
  simp only [mapSet]
  by_cases h : mapHas m k = true
  · rw [if_pos h]
    simp
  · rw [if_neg h]
    simp

/-- `mapSet` appends when the key is absent. -/
theorem mapSet_of_not_has (m : BlameCache) (k : String) (v : FileBlame)
    (h : mapHas m k = false) : mapSet m k v = m ++ [(k, v)] := by
  simp only [mapSet, h]
  simp

/-- Claim C5: the blame result cache never exceeds `MAX_CACHE_SIZE = 50`
entries; when an insert would exceed capacity the oldest-inserted entry
(the head of the insertion-ordered map) is evicted; and a cache read leaves
the map, hence every entry's position in the eviction order, unchanged. -/
theorem blame_cache_bounded_insertion_order (m : BlameCache) (k : String)
    (v : FileBlame) (hlen : m.length ≤ MAX_CACHE_SIZE) :
    (cacheBlameResult m k v).length ≤ MAX_CACHE_SIZE ∧
    (m.length = MAX_CACHE_SIZE → mapHas m k = false →
      cacheBlameResult m k v = m.tail ++ [(k, v)]) ∧
    (∀ k2, readBlameCache m k2 = (m, mapGet m k2)) := by
  refine ⟨?_, ?_, fun _ => rfl⟩
  · by_cases hfull : MAX_CACHE_SIZE ≤ m.length
    · have hm : m.length = MAX_CACHE_SIZE := Nat.le_antisymm hlen hfull
      cases m with
      | nil => simp [MAX_CACHE_SIZE] at hm
      | cons p t =>
        simp only [cacheBlameResult, List.head?_cons, if_pos hfull]
        have hdel : mapDelete (p :: t) p.1 = t := by
          simp [mapDelete]
        rw [hdel]
        have := mapSet_length_le t k v
        have ht : t.length + 1 = MAX_CACHE_SIZE := by
          simpa using hm
        omega
    · simp only [cacheBlameResult, if_neg hfull]
      have := mapSet_length_le m k v
      omega
  · intro hm hhas
    cases m with
    | nil => simp [MAX_CACHE_SIZE] at hm
    | cons p t =>
      have hfull : MAX_CACHE_SIZE ≤ (p :: t).length := le_of_eq hm.symm
      simp only [cacheBlameResult, List.head?_cons, if_pos hfull]
      have hdel : mapDelete (p :: t) p.1 = t := by
        simp [mapDelete]
      rw [hdel]
      have hthas : mapHas t k = false := by
        simp only [mapHas, List.any_cons, Bool.or_eq_false_iff] at hhas
        exact hhas.2
      rw [mapSet_of_not_has t k v hthas]
      rfl

/-- Witness for C5: inserting a fresh key into the full 50-entry cache
keeps it at 50 entries and evicts exactly the oldest entry `"0"`. -/
theorem blame_cache_bounded_insertion_order_witness :
    (cacheBlameResult fullCacheW "zz" blameW).length ≤ MAX_CACHE_SIZE ∧
    cacheBlameResult fullCacheW "zz" blameW = fullCacheW.tail ++ [("zz", blameW)] := by
  have h := blame_cache_bounded_insertion_order fullCacheW "zz" blameW (by decide)
  exact ⟨h.1, h.2.1 (by decide) (by decide)⟩

/-- Claim C9: on a cache hit, `loadFileBlame` returns the cached blame
without invoking the `get_file_blame` backend and without touching the
cache: the whole application state is returned unchanged. -/
theorem load_file_blame_hit_frame (st : AppState) (filePath repo commit : String)
    (b : FileBlame) (backend : String → String → String → FileBlame)
    (hrepo : st.currentRepoPath = some repo) (hrepoNe : ¬ repo = "")
    (hcommit : st.selectedCommit = some commit) (hcommitNe : ¬ commit = "")
    (hhit : mapGet st.blameCache (cacheKey repo commit filePath) = some b) :
    loadFileBlame st filePath backend = (st, some b, false) := by
  simp only [loadFileBlame, hrepo, hcommit, Option.getD_some]
  rw [if_neg]
  · simp only [hhit]
  · simp [hrepoNe, hcommitNe]

/-- Witness for C9: with `r:c:a.txt` cached, `loadFileBlame` is a pure
cache read. -/
theorem load_file_blame_hit_frame_witness :
    loadFileBlame hitStateW "a.txt" (fun _ _ _ => blameW) =
      (hitStateW, some blameW, false) :=
  load_file_blame_hit_frame hitStateW "a.txt" "r" "c" blameW (fun _ _ _ => blameW)
    rfl (by decide) rfl (by decide) (by decide)

@[simp] theorem isOldLine_context : isOldLine LineType.context = true := rfl

@[simp] theorem isOldLine_deletion : isOldLine LineType.deletion = true := rfl

@[simp] theorem isOldLine_addition : isOldLine LineType.addition = false := rfl

@[simp] theorem isNewLine_context : isNewLine LineType.context = true := rfl

@[simp] theorem isNewLine_deletion : isNewLine LineType.deletion = false := rfl

@[simp] theorem isNewLine_addition : isNewLine LineType.addition = true := rfl

/-- The `deletion`/`context` entries of the raw alignment spell out the old
file. -/
theorem diffLines_oldSide (a b : List String) :
    ((diffLines a b).filter (fun p => isOldLine p.1)).map (fun p => p.2) = a := by
  induction a, b using diffLines.induct with
  | case1 => simp [diffLines]
  | case2 y ys ih => simp [diffLines, ih]
  | case3 x xs ih => simp [diffLines, ih]
  | case4 xs y ys ih => simp [diffLines, ih]
  | case5 x xs y ys h h2 ih => simp [diffLines, if_neg h, if_pos h2, ih]
  | case6 x xs y ys h h2 ih => simp [diffLines, if_neg h, if_neg h2, ih]

/-- The `addition`/`context` entries of the raw alignment spell out the new
file. -/
theorem diffLines_newSide (a b : List String) :
    ((diffLines a b).filter (fun p => isNewLine p.1)).map (fun p => p.2) = b := by
  induction a, b using diffLines.induct with
  | case1 => simp [diffLines]
  | case2 y ys ih => simp [diffLines, ih]
  | case3 x xs ih => simp [diffLines, ih]
  | case4 xs y ys ih => simp [diffLines, ih]
  | case5 x xs y ys h h2 ih => simp [diffLines, if_neg h, if_pos h2, ih]
  | case6 x xs y ys h h2 ih => simp [diffLines, if_neg h, if_neg h2, ih]

/-- Numbering neither drops, reorders, retypes nor rewrites lines: filtering
by any `line_type` predicate commutes with it. -/
theorem numberDiff_filter_map (p : LineType → Bool) :
    ∀ (d : List (LineType × String)) (o n : Nat),
      ((numberDiff d o n).filter (fun l => p l.line_type)).map (fun l => l.content) =
        (d.filter (fun q => p q.1)).map (fun q => q.2) := by
  intro d
  induction d with
  | nil => intro o n; simp [numberDiff]
  | cons q rest ih =>
    intro o n
    obtain ⟨t, s⟩ := q
    cases t with
    | context =>
      simp only [numberDiff, List.filter_cons, List.map_cons]
      by_cases hp : p LineType.context = true
      · simp [hp, ih]
      · simp only [Bool.not_eq_true] at hp
        simp [hp, ih]
    | deletion =>
      simp only [numberDiff, List.filter_cons, List.map_cons]
      by_cases hp : p LineType.deletion = true
      · simp [hp, ih]
      · simp only [Bool.not_eq_true] at hp
        simp [hp, ih]
    | addition =>
      simp only [numberDiff, List.filter_cons, List.map_cons]
      by_cases hp : p LineType.addition = true
      · simp [hp, ih]
      · simp only [Bool.not_eq_true] at hp
        simp [hp, ih]

/-- Claim C3: for every pair of text files, the `DiffLine` entries whose
`line_type` is `deletion` or `context` concatenate to exactly the old file,
and the entries whose `line_type` is `addition` or `context` concatenate to
exactly the new file. -/
theorem diff_round_trip (oldLines newLines : List String) :
    ((computeFileDiff oldLines newLines).filter
        (fun l => isOldLine l.line_type)).map (fun l => l.content) = oldLines ∧
    ((computeFileDiff oldLines newLines).filter
        (fun l => isNewLine l.line_type)).map (fun l => l.content) = newLines := by
  constructor
  · rw [computeFileDiff, numberDiff_filter_map isOldLine]
    exact diffLines_oldSide oldLines newLines
  · rw [computeFileDiff, numberDiff_filter_map isNewLine]
    exact diffLines_newSide oldLines newLines

/-- Every `DiffLine` that `numberDiff` emits satisfies the line-number
invariant. -/
theorem numberDiff_numbers :
    ∀ (d : List (LineType × String)) (o n : Nat), ∀ l ∈ numberDiff d o n,
      (l.line_type = LineType.context →
        l.old_line_number.isSome ∧ l.new_line_number.isSome) ∧
      (l.line_type = LineType.deletion →
        l.old_line_number.isSome ∧ l.new_line_number = none) ∧
      (l.line_type = LineType.addition →
        l.old_line_number = none ∧ l.new_line_number.isSome) := by
  intro d
  induction d with
  | nil => intro o n l hl; simp [numberDiff] at hl
  | cons q rest ih =>
    intro o n l hl
    obtain ⟨t, s⟩ := q
    cases t with
    | context =>
      rcases (List.mem_cons).mp hl with h | h
      · subst h
        refine ⟨fun _ => ⟨rfl, rfl⟩, fun hc => ?_, fun hc => ?_⟩ <;> simp at hc
      · exact ih (o + 1) (n + 1) l h
    | deletion =>
      rcases (List.mem_cons).mp hl with h | h
      · subst h
        refine ⟨fun hc => ?_, fun _ => ⟨rfl, rfl⟩, fun hc => ?_⟩ <;> simp at hc
      · exact ih (o + 1) n l h
    | addition =>
      rcases (List.mem_cons).mp hl with h | h
      · subst h
        refine ⟨fun hc => ?_, fun hc => ?_, fun _ => ⟨rfl, rfl⟩⟩ <;> simp at hc
      · exact ih o (n + 1) l h

/-- Claim C8: in every `DiffLine` produced by the Diff Engine,
`old_line_number` is set exactly for `context` and `deletion` lines,
`new_line_number` exactly for `context` and `addition` lines; pure additions
and pure deletions leave exactly the other number unset. -/
theorem diff_line_number_invariant (oldLines newLines : List String) :
    ∀ l ∈ computeFileDiff oldLines newLines,
      (l.line_type = LineType.context →
        l.old_line_number.isSome ∧ l.new_line_number.isSome) ∧
      (l.line_type = LineType.deletion →
        l.old_line_number.isSome ∧ l.new_line_number = none) ∧
      (l.line_type = LineType.addition →
        l.old_line_number = none ∧ l.new_line_number.isSome) := by
  intro l hl
  exact numberDiff_numbers (diffLines oldLines newLines) 1 1 l hl

/-- Witness for C8: in the one-line replacement diff of `["a"]` against
`["b"]`, the deletion line carries only an old number and the addition line
only a new number. -/
theorem diff_line_number_invariant_witness :
    ((⟨LineType.deletion, some 1, none, "a"⟩ : DiffLine).old_line_number.isSome ∧
      (⟨LineType.deletion, some 1, none, "a"⟩ : DiffLine).new_line_number = none) ∧
    ((⟨LineType.addition, none, some 1, "b"⟩ : DiffLine).old_line_number = none ∧
      (⟨LineType.addition, none, some 1, "b"⟩ : DiffLine).new_line_number.isSome) :=
  ⟨(diff_line_number_invariant ["a"] ["b"]
      ⟨LineType.deletion, some 1, none, "a"⟩
      (by simp [computeFileDiff, diffLines, lcs, numberDiff])).2.1 rfl,
    (diff_line_number_invariant ["a"] ["b"]
      ⟨LineType.addition, none, some 1, "b"⟩
      (by simp [computeFileDiff, diffLines, lcs, numberDiff])).2.2 rfl⟩

/-- `mergeAttr` produces one attribution per `context`/`addition` entry of
the alignment, i.e. per new-side line. -/
theorem mergeAttr_length (cid : String) :
    ∀ (d : List (LineType × String)) (pa : List String),
      (mergeAttr cid d pa).length = (d.filter (fun q => isNewLine q.1)).length := by
  intro d
  induction d with
  | nil => intro pa; simp [mergeAttr]
  | cons q rest ih =>
    intro pa
    obtain ⟨t, s⟩ := q
    cases t with
    | context => simp [mergeAttr, ih]
    | deletion => simp [mergeAttr, ih]
    | addition => simp [mergeAttr, ih]

/-- The attribution pass returns exactly one originating commit per current
line. -/
theorem attributeLines_length (parentOf : String → Option String)
    (fileAt : String → Option (List String)) :
    ∀ (fuel : Nat) (cid : String) (lines : List String),
      (attributeLines parentOf fileAt fuel cid lines).length = lines.length := by
  intro fuel
  induction fuel with
  | zero => intro cid lines; simp [attributeLines]
  | succ fuel ih =>
    intro cid lines
    cases hp : parentOf cid with
    | none => simp [attributeLines, hp]
    | some p =>
      cases hf : fileAt p with
      | none => simp [attributeLines, hp, hf]
      | some pls =>
        simp only [attributeLines, hp, hf]
        rw [mergeAttr_length]
        have h := diffLines_newSide pls lines
        calc ((diffLines pls lines).filter (fun q => isNewLine q.1)).length
            = (((diffLines pls lines).filter (fun q => isNewLine q.1)).map
                (fun q => q.2)).length := (List.length_map _ _).symm
          _ = lines.length := by rw [h]

/-- `mkBlameLines` pairs attributions with lines one-to-one. -/
theorem mkBlameLines_length (shortOf authorOf dateOf : String → String) :
    ∀ (as ls : List String) (n : Nat), as.length = ls.length →
      (mkBlameLines shortOf authorOf dateOf as ls n).length = ls.length := by
  intro as
  induction as with
  | nil =>
    intro ls n h
    cases ls with
    | nil => simp [mkBlameLines]
    | cons l ls2 => simp at h
  | cons a as2 ih =>
    intro ls n h
    cases ls with
    | nil => simp at h
    | cons l ls2 =>
      simp only [List.length_cons, Nat.add_right_cancel_iff] at h
      simp [mkBlameLines, ih ls2 (n + 1) h]

/-- Claim C4: for every file that exists at a commit, `blame` succeeds and
returns a `FileBlame` with exactly one `BlameLine` per line of the file as
it exists at that commit. -/
theorem blame_one_line_per_line (parentOf : String → Option String)
    (fileAt : String → Option (List String))
    (shortOf authorOf dateOf : String → String)
    (fuel : Nat) (commitId path : String) (lines : List String)
    (h : fileAt commitId = some lines) :
    ∃ fb, blame parentOf fileAt shortOf authorOf dateOf fuel commitId path = some fb ∧
      fb.blame_lines.length = lines.length := by
  refine ⟨⟨path, mkBlameLines shortOf authorOf dateOf
      (attributeLines parentOf fileAt fuel commitId lines) lines 1⟩, ?_, ?_⟩
  · simp only [blame, h]
  · exact mkBlameLines_length shortOf authorOf dateOf _ lines 1
      (attributeLines_length parentOf fileAt fuel commitId lines)

/-- Witness for C4: blaming the two-line file at commit `c2` of the
concrete history yields a `FileBlame` with exactly 2 lines. -/
theorem blame_one_line_per_line_witness :
    ∃ fb, blame parentOfW fileAtW (fun s => s) (fun _ => "alice") (fun _ => "d")
        5 "c2" "a.txt" = some fb ∧
      fb.blame_lines.length = ["hello", "world"].length :=
  blame_one_line_per_line parentOfW fileAtW (fun s => s) (fun _ => "alice")
    (fun _ => "d") 5 "c2" "a.txt" ["hello", "world"] (by decide)

/-- Every result a single commit contributes carries that commit's id. -/
theorem commitSearchResults_commit_id (query : String)
    (changes : String → List FileChange)
    (fileLines : String → String → Option (List String)) (c : Commit) :
    ∀ r ∈ commitSearchResults query changes fileLines c, r.commit_id = c.id := by
  intro r hr
  simp only [commitSearchResults, List.mem_append, List.mem_map,
    List.mem_filterMap] at hr
  rcases hr with (h | ⟨fc, _, hfc⟩) | ⟨fc, _, hfc⟩
  · split at h
    · have := List.mem_singleton.mp h
      subst this; rfl
    · simp at h
  · subst hfc; rfl
  · split at hfc
    · simp at hfc
    · rcases Option.map_eq_some'.mp hfc with ⟨p, _, hp⟩
      subst hp; rfl

/-- Loop invariant of the search: the accumulator stays within the result
cap and only ever holds results of scanned non-merge commits. -/
theorem globalSearchGo_spec (query : String)
    (changes : String → List FileChange)
    (fileLines : String → String → Option (List String)) (commits : List Commit) :
    ∀ (cs : List Commit) (acc : List SearchResult),
      (∀ c ∈ cs, c ∈ commits) →
      acc.length ≤ MAX_SEARCH_RESULTS →
      (∀ r ∈ acc, ∃ c, c ∈ commits ∧ r.commit_id = c.id ∧ c.parent_ids.length ≤ 1) →
      (globalSearchGo query changes fileLines cs acc).length ≤ MAX_SEARCH_RESULTS ∧
      (∀ r ∈ globalSearchGo query changes fileLines cs acc,
        ∃ c, c ∈ commits ∧ r.commit_id = c.id ∧ c.parent_ids.length ≤ 1) := by
  intro cs
  induction cs with
  | nil =>
    intro acc hsub hlen hP
    exact ⟨hlen, hP⟩
  | cons c cs2 ih =>
    intro acc hsub hlen hP
    simp only [globalSearchGo]
    by_cases hstop : MAX_SEARCH_RESULTS ≤ acc.length
    · rw [if_pos hstop]
      exact ⟨hlen, hP⟩
    · rw [if_neg hstop]
      by_cases hmerge : 1 < c.parent_ids.length
      · rw [if_pos hmerge]
        exact ih acc (fun c2 h2 => hsub c2 (List.mem_cons_of_mem c h2)) hlen hP
      · rw [if_neg hmerge]
        apply ih
        · exact fun c2 h2 => hsub c2 (List.mem_cons_of_mem c h2)
        · have htake : ((commitSearchResults query changes fileLines c).take
              (MAX_SEARCH_RESULTS - acc.length)).length ≤
                MAX_SEARCH_RESULTS - acc.length := by
            rw [List.length_take]
            exact Nat.min_le_left _ _
          rw [List.length_append]
          omega
        · intro r hr
          rcases List.mem_append.mp hr with h | h
          · exact hP r h
          · have hmem := List.take_subset _ _ h
            have hid := commitSearchResults_commit_id query changes fileLines c r hmem
            exact ⟨c, hsub c (List.mem_cons_self c cs2), hid, by omega⟩

/-- Claim C1: `global_search` returns at most `MAX_SEARCH_RESULTS = 50`
results (hence at most `min(max_commits-derived cap, 50)`), and every
returned `SearchResult` carries the id of a scanned commit with at most one
parent — never a merge commit. -/
theorem global_search_cap_and_no_merge (commits : List Commit) (query : String)
    (maxCommits : Nat) (changes : String → List FileChange)
    (fileLines : String → String → Option (List String)) :
    (global_search commits query maxCommits changes fileLines).length ≤
      MAX_SEARCH_RESULTS ∧
    ∀ r ∈ global_search commits query maxCommits changes fileLines,
      ∃ c, c ∈ commits.take maxCommits ∧ r.commit_id = c.id ∧
        c.parent_ids.length ≤ 1 := by
  have h := globalSearchGo_spec query changes fileLines (commits.take maxCommits)
    (commits.take maxCommits) []
    (fun _ hc => hc)
    (by simp)
    (by intro r hr; simp at hr)
  exact ⟨h.1, h.2⟩

/-- Witness for C1: searching `"hello"` over a merge commit followed by a
matching plain commit stays within the cap, and the emitted result is
traced to the non-merge commit. -/
theorem global_search_cap_and_no_merge_witness :
    (global_search [mergeCommitW, helloCommitW] "hello" 10 (fun _ => [])
        (fun _ _ => none)).length ≤ MAX_SEARCH_RESULTS ∧
    ∃ c, c ∈ [mergeCommitW, helloCommitW].take 10 ∧
      (mkCommitResult helloCommitW).commit_id = c.id ∧ c.parent_ids.length ≤ 1 :=
  ⟨(global_search_cap_and_no_merge [mergeCommitW, helloCommitW] "hello" 10
      (fun _ => []) (fun _ _ => none)).1,
    (global_search_cap_and_no_merge [mergeCommitW, helloCommitW] "hello" 10
      (fun _ => []) (fun _ _ => none)).2 (mkCommitResult helloCommitW) (by decide)⟩

/-- The greedy single-pass scan consumes the whole pattern exactly when the
pattern is a subsequence of the text, whatever the accumulators hold. -/
theorem fuzzyLoop_nil_iff :
    ∀ (txt pat : List Char) (tIdx consec : Nat) (score : ℚ) (hl : List Nat),
      (fuzzyLoop pat txt tIdx consec score hl).1 = [] ↔ List.Sublist pat txt := by
  intro txt
  induction txt with
  | nil =>
    intro pat tIdx consec score hl
    cases pat with
    | nil => simp [fuzzyLoop]
    | cons p ps => simp [fuzzyLoop]
  | cons t ts ih =>
    intro pat tIdx consec score hl
    cases pat with
    | nil => simp [fuzzyLoop]
    | cons p ps =>
      by_cases hpt : p = t
      · subst hpt
        simp only [fuzzyLoop, eq_self_iff_true, if_true]
        rw [ih]
        exact List.cons_sublist_cons.symm
      · simp only [fuzzyLoop, if_neg hpt]
        rw [ih]
        constructor
        · intro h
          exact h.cons t
        · intro h
          cases h with
          | cons _ h2 => exact h2
          | cons₂ _ h2 => exact absurd rfl hpt

/-- For nonempty inputs, `fuzzyMatch`'s `matches` flag is exactly "the
greedy scan consumed the whole pattern". -/
theorem fuzzyMatch_isMatch_eq (pattern text : String)
    (hp : ¬ pattern = "") (ht : ¬ text = "") :
    (fuzzyMatch pattern text).isMatch =
      (fuzzyLoop (toLowerList pattern) (toLowerList text) 0 0 0 []).1.isEmpty := by
  simp only [fuzzyMatch, if_neg hp, if_neg ht]
  by_cases hm : (fuzzyLoop (toLowerList pattern) (toLowerList text) 0 0 0 []).1.isEmpty = true
  · rw [if_pos hm]
    simp [hm]
  · rw [if_neg hm]
    simp only [Bool.not_eq_true] at hm
    simp [hm]

/-- A string with an empty character list is the empty string. -/
theorem toLowerList_eq_nil (s : String) (h : toLowerList s = []) : s = "" := by
  simp only [toLowerList, List.map_eq_nil_iff] at h
  exact String.ext h

/-- Claim C10: `fuzzyMatch(pattern, text).matches` holds if and only if the
lowercased pattern is a subsequence of the lowercased text; in particular
the empty pattern matches every text with score 0 and no highlights. -/
theorem fuzzy_match_subsequence (pattern text : String) :
    ((fuzzyMatch pattern text).isMatch = true ↔
      List.Sublist (toLowerList pattern) (toLowerList text)) ∧
    (pattern = "" → fuzzyMatch pattern text = ⟨true, 0, []⟩) := by
  constructor
  · by_cases hp : pattern = ""
    · subst hp
      constructor
      · intro _
        have : toLowerList "" = [] := rfl
        rw [this]
        exact List.nil_sublist _
      · intro _
        simp [fuzzyMatch]
    · by_cases ht : text = ""
      · subst ht
        constructor
        · intro h
          simp only [fuzzyMatch, if_neg hp, if_pos rfl] at h
          simp at h
        · intro h
          have hnil : toLowerList pattern = [] := by
            have : toLowerList "" = [] := rfl
            rw [this] at h
            exact List.sublist_nil.mp h
          exact absurd (toLowerList_eq_nil pattern hnil) hp
      · rw [fuzzyMatch_isMatch_eq pattern text hp ht]
        rw [List.isEmpty_iff]
        exact fuzzyLoop_nil_iff (toLowerList text) (toLowerList pattern) 0 0 0 []
  · intro h
    subst h
    simp [fuzzyMatch]

/-- Witness for C10: the empty pattern matches `"src/main.js"` with score 0,
and `"sm"` is matched as a subsequence of it. -/
theorem fuzzy_match_subsequence_witness :
    fuzzyMatch "" "src/main.js" = ⟨true, 0, []⟩ ∧
    List.Sublist (toLowerList "sm") (toLowerList "src/main.js") :=
  ⟨(fuzzy_match_subsequence "" "src/main.js").2 rfl,
    (fuzzy_match_subsequence "sm" "src/main.js").1.mp (by decide)⟩

end GitViewer
